import Mathlib

/-!
# Verification of `src/mpi_trap.c`

Shallow embedding of the pthreads trapezoidal-rule program `mpi_trap.c`.
C `double` arithmetic is embedded as exact rational arithmetic (`ℚ`);
C integer arithmetic on the nonnegative quantities involved is `ℕ`,
except `BLOCK_HIGH`, which can be `-1` and therefore lives in `ℤ`.

Program structure being modelled:
* `f(x) = x*x - 4*x + 8`                                  (lines 139-142)
* `h = (b-a)/n`                                           (line 65)
* `BLOCK_LOW(id,p,n)  = id*n/p`                           (line 53)
* `BLOCK_HIGH(id,p,n) = BLOCK_LOW(id+1,p,n) - 1`          (line 54)
* `mutex_Trap` (lines 101-132): rank-1 worker adds `(f(a)+f(b))/2`,
  every worker loops `i = local_a .. local_b` adding `f(a+i*h)`,
  scales by `h`, and does one locked `GLOBAL_MUTEX_SUM += local_int`.
* `main` hardwires `n = 10000000`, `a = 1.0`, `b = 5.0`,
  `thread_count = 2` (lines 61-69).
-/

namespace MpiTrap

/-- The integrand (lines 139-142): `f(x) = x*x - 4*x + 8`. -/
def f (x : ℚ) : ℚ := x * x - 4 * x + 8

/-- The step size computed in `main` (line 65): `h = (b-a)/n`. -/
def h (a b : ℚ) (n : ℕ) : ℚ := (b - a) / n

/-- `BLOCK_LOW(id,p,n) = (id)*(n)/(p)` (line 53).  All operands are
nonnegative, so C truncating division is `ℕ` division. -/
def BLOCK_LOW (id p n : ℕ) : ℕ := id * n / p

/-- `BLOCK_HIGH(id,p,n) = BLOCK_LOW((id)+1,p,n) - 1` (line 54).  The value can
be `-1` (empty block), so it is an integer. -/
def BLOCK_HIGH (id p n : ℕ) : ℤ := (BLOCK_LOW (id + 1) p n : ℤ) - 1

/-- The inclusive range `[local_a, local_b]` that the worker loop
`for (i = local_a; i <= local_b; i++)` iterates over (lines 109-110, 119). -/
def workerRange (id p n : ℕ) : Finset ℤ :=
  Finset.Icc (BLOCK_LOW id p n : ℤ) (BLOCK_HIGH id p n)

/-- `especial_case = (int) thread_rank` (line 106). -/
def especial_case (thread_rank : ℕ) : ℕ := thread_rank

/-- The conditional endpoint contribution (lines 113-116): the worker whose
`especial_case == 1` adds `(f(a)+f(b))/2.0` to its local sum. -/
def edgeTerm (a b : ℚ) (thread_rank : ℕ) : ℚ :=
  if especial_case thread_rank = 1 then (f a + f b) / 2 else 0

/-- The value of `local_int` after the endpoint conditional and the sample
loop, before the final scaling (lines 104-122). -/
def local_pre (a b : ℚ) (n p rank : ℕ) : ℚ :=
  edgeTerm a b rank + ∑ i in workerRange rank p n, f (a + i * h a b n)

/-- The value `local_int = local_int * h` that a worker contributes
(line 123). -/
def local_int (a b : ℚ) (n p rank : ℕ) : ℚ := local_pre a b n p rank * h a b n

/-- One locked update `GLOBAL_MUTEX_SUM += local_int` (lines 126-128). -/
def lockedAdd (a b : ℚ) (n p : ℕ) (acc : ℚ) (rank : ℕ) : ℚ :=
  acc + local_int a b n p rank

/-- The accumulator after the workers listed in `order` have each performed
their single locked add, starting from accumulator value `acc`.  The mutex
makes each add atomic, so an execution is a sequence of adds. -/
def runFrom (a b : ℚ) (n p : ℕ) (acc : ℚ) (order : List ℕ) : ℚ :=
  order.foldl (lockedAdd a b n p) acc

/-- The final accumulator value read by `main` after joining all `p` workers,
taken in the canonical order `0, 1, ..., p-1`.  (`GLOBAL_MUTEX_SUM` is
initialized to `0` at line 71.) -/
def GLOBAL_MUTEX_SUM (a b : ℚ) (n p : ℕ) : ℚ :=
  runFrom a b n p 0 (List.range p)

/-- Hardwired `n` (line 61). -/
def nMain : ℕ := 10000000

/-- Hardwired `a` (line 62). -/
def aMain : ℚ := 1

/-- Hardwired `b` (line 63). -/
def bMain : ℚ := 5

/-- Hardwired `thread_count` (line 69). -/
def thread_count : ℕ := 2

/-! ## Range-partitioner lemmas -/

lemma BLOCK_LOW_zero (p n : ℕ) : BLOCK_LOW 0 p n = 0 := by
  simp [BLOCK_LOW]

lemma BLOCK_LOW_top (p n : ℕ) (hp : 0 < p) : BLOCK_LOW p p n = n := by
  simpa [BLOCK_LOW, Nat.mul_comm] using Nat.mul_div_cancel_left n hp

lemma BLOCK_LOW_mono (p n : ℕ) {i j : ℕ} (hij : i ≤ j) :
    BLOCK_LOW i p n ≤ BLOCK_LOW j p n :=
  Nat.div_le_div_right (Nat.mul_le_mul_right n hij)

lemma workerRange_eq_Ico (id p n : ℕ) :
    workerRange id p n =
      Finset.Ico (BLOCK_LOW id p n : ℤ) (BLOCK_LOW (id + 1) p n : ℤ) := by
  ext x
  simp only [workerRange, BLOCK_HIGH, Finset.mem_Icc, Finset.mem_Ico]
  omega

/-- Every index `m < n` lies in exactly the block of the worker whose
`BLOCK_LOW` is the last one not exceeding `m`. -/
lemma exists_owner (p n m : ℕ) (hp : 0 < p) (hm : m < n) :
    ∃ r, r < p ∧ BLOCK_LOW r p n ≤ m ∧ m < BLOCK_LOW (r + 1) p n := by
  classical
  set S := (Finset.range (p + 1)).filter (fun r => BLOCK_LOW r p n ≤ m) with hS
  have h0 : 0 ∈ S := by
    simp [hS, BLOCK_LOW_zero]
  have hne : S.Nonempty := ⟨0, h0⟩
  set r := S.max' hne with hr
  have hrS : r ∈ S := S.max'_mem hne
  have hrle : BLOCK_LOW r p n ≤ m := (Finset.mem_filter.mp hrS).2
  have hrlt : r < p + 1 := Finset.mem_range.mp (Finset.mem_filter.mp hrS).1
  have hrp : r < p := by
    rcases Nat.lt_or_ge r p with h1 | h1
    · exact h1
    · exfalso
      have hreq : r = p := by omega
      rw [hreq, BLOCK_LOW_top p n hp] at hrle
      omega
  refine ⟨r, hrp, hrle, ?_⟩
  by_contra hcon
  push_neg at hcon
  have hmem : r + 1 ∈ S :=
    Finset.mem_filter.mpr ⟨Finset.mem_range.mpr (by omega), hcon⟩
  have := S.le_max' _ hmem
  omega

/-- The blocks of all `p` workers cover exactly the indices `0, …, n-1`. -/
lemma biUnion_workerRange (p n : ℕ) (hp : 1 ≤ p) :
    (Finset.range p).biUnion (fun id => workerRange id p n) =
      Finset.Ico (0 : ℤ) (n : ℤ) := by
  ext x
  simp only [Finset.mem_biUnion, Finset.mem_range, workerRange_eq_Ico,
    Finset.mem_Ico]
  constructor
  · rintro ⟨r, hrp, hlo, hhi⟩
    have h2 : BLOCK_LOW (r + 1) p n ≤ BLOCK_LOW p p n := BLOCK_LOW_mono p n (by omega)
    rw [BLOCK_LOW_top p n hp] at h2
    omega
  · rintro ⟨hx0, hxn⟩
    obtain ⟨r, hrp, hlo, hhi⟩ := exists_owner p n x.toNat hp (by omega)
    exact ⟨r, hrp, by omega, by omega⟩

lemma workerRange_disjoint_lt (p n : ℕ) {i j : ℕ} (hij : i < j) :
    Disjoint (workerRange i p n) (workerRange j p n) := by
  rw [workerRange_eq_Ico, workerRange_eq_Ico, Finset.disjoint_left]
  intro x hx hx'
  rw [Finset.mem_Ico] at hx hx'
  have hmono : BLOCK_LOW (i + 1) p n ≤ BLOCK_LOW j p n := BLOCK_LOW_mono p n (by omega)
  omega

lemma workerRange_disjoint (p n : ℕ) {i j : ℕ} (hij : i ≠ j) :
    Disjoint (workerRange i p n) (workerRange j p n) := by
  rcases Nat.lt_or_ge i j with h1 | h1
  · exact workerRange_disjoint_lt p n h1
  · exact (workerRange_disjoint_lt p n (by omega)).symm

lemma workerRange_card (id p n : ℕ) :
    (workerRange id p n).card = BLOCK_LOW (id + 1) p n - BLOCK_LOW id p n := by
  rw [workerRange_eq_Ico, Int.card_Ico]
  omega

/-- Decompose `BLOCK_LOW` using `n = p*(n/p) + n%p`. -/
lemma BLOCK_LOW_decomp (id p n : ℕ) (hp : 0 < p) :
    BLOCK_LOW id p n = id * (n / p) + id * (n % p) / p := by
  have h1 : id * n = p * (id * (n / p)) + id * (n % p) := by
    conv_lhs => rw [← Nat.div_add_mod n p]
    ring
  rw [BLOCK_LOW, h1, Nat.mul_add_div hp]

/-- Every block has between `n/p` and `n/p + 1` elements. -/
lemma size_bounds (id p n : ℕ) (hp : 0 < p) :
    BLOCK_LOW id p n + n / p ≤ BLOCK_LOW (id + 1) p n ∧
      BLOCK_LOW (id + 1) p n ≤ BLOCK_LOW id p n + n / p + 1 := by
  have hd1 := BLOCK_LOW_decomp id p n hp
  have hd2 := BLOCK_LOW_decomp (id + 1) p n hp
  have hmono : id * (n % p) / p ≤ (id + 1) * (n % p) / p :=
    Nat.div_le_div_right (Nat.mul_le_mul_right _ (by omega))
  have hup : (id + 1) * (n % p) / p ≤ id * (n % p) / p + 1 := by
    have hmod : n % p < p := Nat.mod_lt n hp
    have hle : (id + 1) * (n % p) ≤ id * (n % p) + p := by
      have hexp : (id + 1) * (n % p) = id * (n % p) + n % p := by ring
      omega
    calc (id + 1) * (n % p) / p ≤ (id * (n % p) + p) / p := Nat.div_le_div_right hle
      _ = id * (n % p) / p + 1 := Nat.add_div_right _ hp
  have hexp2 : (id + 1) * (n / p) = id * (n / p) + n / p := by ring
  set x1 := id * (n / p) with hx1
  set x2 := id * (n % p) / p with hx2
  set x3 := (id + 1) * (n % p) / p with hx3
  set x4 := (id + 1) * (n / p) with hx4
  omega

/-! ## Accumulator lemmas -/

lemma runFrom_eq_add_sum (a b : ℚ) (n p : ℕ) (acc : ℚ) (l : List ℕ) :
    runFrom a b n p acc l = acc + (l.map (local_int a b n p)).sum := by
  induction l generalizing acc with
  | nil => simp [runFrom]
  | cons r t ih =>
      show runFrom a b n p (lockedAdd a b n p acc r) t = _
      rw [ih]
      simp [lockedAdd]
      ring

lemma list_range_map_sum (g : ℕ → ℚ) (p : ℕ) :
    ((List.range p).map g).sum = ∑ r in Finset.range p, g r := by
  induction p with
  | zero => simp
  | succ m ih =>
      rw [List.range_succ, List.map_append, List.sum_append, ih,
        Finset.sum_range_succ]
      simp

lemma GLOBAL_eq_sum (a b : ℚ) (n p : ℕ) :
    GLOBAL_MUTEX_SUM a b n p = ∑ r in Finset.range p, local_int a b n p r := by
  rw [GLOBAL_MUTEX_SUM, runFrom_eq_add_sum, zero_add, list_range_map_sum]

lemma sum_Ico_int (g : ℤ → ℚ) (n : ℕ) :
    ∑ i in Finset.Ico (0 : ℤ) (n : ℤ), g i = ∑ k in Finset.range n, g (k : ℤ) := by
  induction n with
  | zero => simp
  | succ m ih =>
      have hins : Finset.Ico (0 : ℤ) ((m + 1 : ℕ) : ℤ) =
          insert (m : ℤ) (Finset.Ico (0 : ℤ) (m : ℤ)) := by
        ext x
        simp only [Finset.mem_Ico, Finset.mem_insert]
        push_cast
        omega
      rw [hins, Finset.sum_insert (by simp), Finset.sum_range_succ, ih]
      ring

/-- Summing any function over all workers' ranges is summing it over
`0, …, n-1`. -/
lemma sum_over_ranges (g : ℤ → ℚ) (p n : ℕ) (hp : 1 ≤ p) :
    ∑ r in Finset.range p, ∑ i in workerRange r p n, g i =
      ∑ k in Finset.range n, g (k : ℤ) := by
  classical
  have hdisj : Set.PairwiseDisjoint ↑(Finset.range p)
      (fun id => workerRange id p n) := by
    intro i _ j _ hij
    exact workerRange_disjoint p n hij
  rw [← Finset.sum_biUnion hdisj, biUnion_workerRange p n hp, sum_Ico_int]

/-- For `p ≥ 2` the endpoint term is contributed by worker `1` alone. -/
lemma edge_sum (a b : ℚ) (p : ℕ) (hp : 2 ≤ p) :
    ∑ r in Finset.range p, edgeTerm a b r = (f a + f b) / 2 := by
  classical
  simp only [edgeTerm, especial_case]
  rw [Finset.sum_ite_eq' (Finset.range p) 1 (fun _ => (f a + f b) / 2)]
  rw [if_pos (Finset.mem_range.mpr (by omega))]

/-- For any worker count `p ≥ 2`, the final accumulator value is the endpoint
term plus the sum of `f` over all `n` sample points, all scaled by `h`. -/
lemma total_eq (a b : ℚ) (n p : ℕ) (hp : 2 ≤ p) :
    GLOBAL_MUTEX_SUM a b n p =
      (f a + f b) / 2 * h a b n +
        (∑ k in Finset.range n, f (a + k * h a b n)) * h a b n := by
  rw [GLOBAL_eq_sum]
  simp only [local_int, local_pre]
  have hsplit : ∑ r in Finset.range p,
      (edgeTerm a b r + ∑ i in workerRange r p n, f (a + i * h a b n)) * h a b n =
      (∑ r in Finset.range p, edgeTerm a b r) * h a b n +
        (∑ r in Finset.range p, ∑ i in workerRange r p n, f (a + i * h a b n)) *
          h a b n := by
    rw [← Finset.sum_mul, Finset.sum_add_distrib, add_mul]
  rw [hsplit, edge_sum a b p hp,
    sum_over_ranges (fun i : ℤ => f (a + i * h a b n)) p n (by omega)]
  simp only [Int.cast_natCast]

/-- Closed form for the sample-point sum of the quadratic integrand along an
arithmetic progression. -/
lemma sum_f_closed (c d : ℚ) (m : ℕ) :
    ∑ k in Finset.range m, f (c + k * d) =
      m * f c + (2 * c - 4) * d * (m * (m - 1) / 2) +
        d ^ 2 * (m * (m - 1) * (2 * m - 1) / 6) := by
  induction m with
  | zero => simp
  | succ k ih =>
      rw [Finset.sum_range_succ, ih]
      simp only [f]
      push_cast
      ring

/-! ## Claim theorems -/

/-- C2: for every `workerCount ≥ 1` and `totalCount ≥ 0`, the inclusive ranges
`[BLOCK_LOW id, BLOCK_HIGH id]` over `id < workerCount` cover exactly
`{0, …, totalCount-1}`, are pairwise disjoint, and any two workers' range
sizes differ by at most one element. -/
theorem C2_partition (p n : ℕ) (hp : 1 ≤ p) :
    (Finset.range p).biUnion (fun id => workerRange id p n) =
        Finset.Ico (0 : ℤ) (n : ℤ) ∧
      (∀ i j, i < p → j < p → i ≠ j →
        Disjoint (workerRange i p n) (workerRange j p n)) ∧
      (∀ i j, i < p → j < p →
        (workerRange i p n).card ≤ (workerRange j p n).card + 1) := by
  refine ⟨biUnion_workerRange p n hp, ?_, ?_⟩
  · intro i j _ _ hij
    exact workerRange_disjoint p n hij
  · intro i j _ _
    have hi := size_bounds i p n hp
    have hj := size_bounds j p n hp
    rw [workerRange_card, workerRange_card]
    have hmi := BLOCK_LOW_mono p n (Nat.le_succ i)
    have hmj := BLOCK_LOW_mono p n (Nat.le_succ j)
    omega

/-- Witness for C2 at `workerCount = 3`, `totalCount = 7`: blocks are
`{0,1}`, `{2,3}`, `{4,5,6}`. -/
theorem C2_partition_witness :
    1 ≤ 3 ∧
      ((Finset.range 3).biUnion (fun id => workerRange id 3 7) =
          Finset.Ico (0 : ℤ) (7 : ℤ) ∧
        (∀ i j, i < 3 → j < 3 → i ≠ j →
          Disjoint (workerRange i 3 7) (workerRange j 3 7)) ∧
        (∀ i j, i < 3 → j < 3 →
          (workerRange i 3 7).card ≤ (workerRange j 3 7).card + 1)) :=
  ⟨by norm_num, C2_partition 3 7 (by norm_num)⟩

/-- C3 counterexample: with `workerCount = 1` (allowed by the claim's
"every workerCount ≥ 1") no worker satisfies `especial_case == 1`, so the
endpoint term `(f(a)+f(b))/2` is added to zero local sums, not exactly one:
worker 0's endpoint contribution is `0`. -/
theorem C3_counterexample :
    ((Finset.range 1).filter (fun r => especial_case r = 1)).card = 0 ∧
      edgeTerm aMain bMain 0 = 0 := by
  constructor
  · decide
  · simp [edgeTerm, especial_case]

/-- C3 amended: for every `workerCount ≥ 2`, the endpoint term is added to
exactly one worker's local sum — the worker with index 1 — so across all
workers it is applied exactly once, independently of the partition. -/
theorem C3_edge_once (a b : ℚ) (p : ℕ) (hp : 2 ≤ p) :
    ((Finset.range p).filter (fun r => especial_case r = 1)) = {1} ∧
      ∑ r in Finset.range p, edgeTerm a b r = (f a + f b) / 2 := by
  constructor
  · ext r
    simp only [Finset.mem_filter, Finset.mem_range, especial_case,
      Finset.mem_singleton]
    omega
  · exact edge_sum a b p hp

/-- Witness for C3 at `workerCount = 2` and the hardwired `a`, `b`. -/
theorem C3_edge_once_witness :
    2 ≤ 2 ∧
      (((Finset.range 2).filter (fun r => especial_case r = 1)) = {1} ∧
        ∑ r in Finset.range 2, edgeTerm aMain bMain r = (f aMain + f bMain) / 2) :=
  ⟨by norm_num, C3_edge_once aMain bMain 2 (by norm_num)⟩

/-- C4 counterexample: at `a = 1`, `b = 5`, `n = 4` the final estimate is `22`
with one worker but `31` with two workers (only a rank-1 worker adds the
endpoint term, and with `workerCount = 1` no such worker exists), so the
estimates are not within `1e-9` of each other. -/
theorem C4_counterexample :
    ¬ (|GLOBAL_MUTEX_SUM 1 5 4 1 - GLOBAL_MUTEX_SUM 1 5 4 2| ≤ 1 / 1000000000) := by
  have h1 : workerRange 0 1 4 = {0, 1, 2, 3} := by decide
  have h2 : workerRange 0 2 4 = {0, 1} := by decide
  have h3 : workerRange 1 2 4 = {2, 3} := by decide
  have e1 : GLOBAL_MUTEX_SUM 1 5 4 1 = 22 := by
    norm_num [GLOBAL_MUTEX_SUM, runFrom, lockedAdd, local_int, local_pre,
      edgeTerm, especial_case, h, f, List.range_succ, h1, Finset.sum_insert,
      Finset.mem_insert, Finset.sum_singleton]
  have e2 : GLOBAL_MUTEX_SUM 1 5 4 2 = 31 := by
    norm_num [GLOBAL_MUTEX_SUM, runFrom, lockedAdd, local_int, local_pre,
      edgeTerm, especial_case, h, f, List.range_succ, h2, h3, Finset.sum_insert,
      Finset.mem_insert, Finset.sum_singleton]
  rw [e1, e2]
  norm_num

/-- C4 amended: for fixed `a`, `b`, `n`, the final estimate is exactly the
same (in exact real arithmetic) for worker counts 2, 4 and 8; the count-1
estimate differs because it lacks the endpoint term. -/
theorem C4_worker_count_invariance (a b : ℚ) (n : ℕ) :
    GLOBAL_MUTEX_SUM a b n 2 = GLOBAL_MUTEX_SUM a b n 4 ∧
      GLOBAL_MUTEX_SUM a b n 4 = GLOBAL_MUTEX_SUM a b n 8 := by
  rw [total_eq a b n 2 (by norm_num), total_eq a b n 4 (by norm_num),
    total_eq a b n 8 (by norm_num)]
  exact ⟨rfl, rfl⟩

/-- C7: the final accumulator value is the same for every order in which the
workers perform their single locked adds — any permutation of the ranks gives
the value obtained in canonical order. -/
theorem C7_order_invariance (a b : ℚ) (n p : ℕ) (l : List ℕ)
    (hl : l.Perm (List.range p)) :
    runFrom a b n p 0 l = GLOBAL_MUTEX_SUM a b n p := by
  rw [GLOBAL_MUTEX_SUM, runFrom_eq_add_sum, runFrom_eq_add_sum]
  exact congrArg _ ((hl.map (local_int a b n p)).sum_eq)

/-- Witness for C7: with two workers, the order `[1, 0]` yields the same
final value as the canonical order `[0, 1]`. -/
theorem C7_order_invariance_witness :
    ([1, 0] : List ℕ).Perm (List.range 2) ∧
      runFrom aMain bMain nMain 2 0 [1, 0] = GLOBAL_MUTEX_SUM aMain bMain nMain 2 :=
  ⟨by decide, C7_order_invariance aMain bMain nMain 2 [1, 0] (by decide)⟩

/-- C10: the amount a worker's locked add contributes to the accumulator is
`local_int`, a function of its rank and the run parameters only: whatever the
accumulator held (`acc` plus the adds of any interleaving `l` of other
workers), worker `r`'s add changes it by exactly `local_int a b n p r`. -/
theorem C10_contribution_deterministic (a b : ℚ) (n p : ℕ) (acc : ℚ)
    (l : List ℕ) (r : ℕ) :
    runFrom a b n p acc (l ++ [r]) =
      runFrom a b n p acc l + local_int a b n p r := by
  rw [runFrom_eq_add_sum, runFrom_eq_add_sum, List.map_append, List.sum_append]
  simp
  ring

/-- C1 counterexample: at the hardwired configuration (`a=1`, `b=5`,
`n=10000000`, two threads) the exact-arithmetic value of the accumulator is
`76/3 + 20/n + 32/(3n²) ≈ 25.3333`, while the claim's target `106/3 ≈ 35.3333`
is a miscomputation of `∫₁⁵ (x²-4x+8) dx = 76/3`; the estimate misses the
claimed value by almost `10`, far beyond the claimed `1e-13` relative
tolerance `106/3 · 1e-13`. -/
theorem C1_counterexample :
    ¬ (|GLOBAL_MUTEX_SUM aMain bMain nMain thread_count - 106 / 3| ≤
        106 / 3 * (1 / 10 ^ 13)) := by
  rw [show thread_count = 2 from rfl, show aMain = (1 : ℚ) from rfl,
    show bMain = (5 : ℚ) from rfl, show nMain = 10000000 from rfl]
  rw [total_eq 1 5 10000000 2 (by norm_num),
    sum_f_closed 1 (h 1 5 10000000) 10000000, not_le]
  refine lt_abs.mpr (Or.inr ?_)
  norm_num [f, h]

/-- C1 amended: at the hardwired configuration the accumulator's
exact-arithmetic value equals `76/3 + 20/10⁷ + 32/(3·10¹⁴)`; it is within
`2.1e-6` (absolute) of the true integral `76/3`, the deviation being dominated
by the extra `h·f(a)` that the loop (which starts at sample index 0) adds on
top of the endpoint-halving term. -/
theorem C1_estimate_exact :
    GLOBAL_MUTEX_SUM aMain bMain nMain thread_count =
        76 / 3 + 20 / 10000000 + 32 / (3 * 10000000 ^ 2) ∧
      |GLOBAL_MUTEX_SUM aMain bMain nMain thread_count - 76 / 3| ≤
        21 / 10000000 := by
  rw [show thread_count = 2 from rfl, show aMain = (1 : ℚ) from rfl,
    show bMain = (5 : ℚ) from rfl, show nMain = 10000000 from rfl]
  rw [total_eq 1 5 10000000 2 (by norm_num),
    sum_f_closed 1 (h 1 5 10000000) 10000000]
  constructor
  · norm_num [f, h]
  · rw [abs_le]
    constructor <;> norm_num [f, h]

/-- C5: evaluation of the code at the claim's degenerate input `n = 0`.
Every worker's partition range is indeed empty, but worker 1 still holds the
endpoint term `(f(a)+f(b))/2 = 9 ≠ 0` in its local sum before the scaling by
`h = (b-a)/0` (an IEEE division by zero in the C program), so the run does
not simply accumulate zero. -/
theorem C5_degenerate_ranges :
    (∀ p id : ℕ, workerRange id p 0 = ∅) ∧
      local_pre aMain bMain 0 thread_count 1 = 9 ∧ (9 : ℚ) ≠ 0 := by
  have hempty : ∀ p id : ℕ, workerRange id p 0 = ∅ := by
    intro p id
    rw [workerRange_eq_Ico]
    simp [BLOCK_LOW]
  refine ⟨hempty, ?_, by norm_num⟩
  rw [local_pre, hempty]
  norm_num [edgeTerm, especial_case, f, aMain, bMain]

/-- C6 counterexample: with `totalCount = 1 < 3 = workerCount`, worker 1
receives an empty range yet contributes `h·(f(a)+f(b))/2 = 36 ≠ 0` to the
accumulator (hardwired `a = 1`, `b = 5`), because the endpoint term is added
on rank alone, before the empty loop. -/
theorem C6_counterexample :
    (1 : ℕ) < 3 ∧ workerRange 1 3 1 = ∅ ∧
      local_int aMain bMain 1 3 1 = 36 ∧ (36 : ℚ) ≠ 0 := by
  have hr : workerRange 1 3 1 = ∅ := by decide
  refine ⟨by norm_num, hr, ?_, by norm_num⟩
  rw [local_int, local_pre, hr]
  norm_num [edgeTerm, especial_case, f, h, aMain, bMain]

/-- C6 amended: a worker whose range is empty contributes zero — provided it
is not worker 1; worker 1's endpoint term is added regardless of its range. -/
theorem C6_empty_range_zero (a b : ℚ) (n p id : ℕ) (hn : n < p) (hid : id < p)
    (hne : id ≠ 1) (hempty : workerRange id p n = ∅) :
    local_int a b n p id = 0 := by
  rw [local_int, local_pre, hempty]
  simp [edgeTerm, especial_case, hne]

/-- Witness for C6: worker 0 of 3 with `totalCount = 1` has an empty range and
contributes zero. -/
theorem C6_empty_range_zero_witness :
    ((1 : ℕ) < 3 ∧ (0 : ℕ) < 3 ∧ (0 : ℕ) ≠ 1 ∧ workerRange 0 3 1 = ∅) ∧
      local_int aMain bMain 1 3 0 = 0 :=
  ⟨⟨by norm_num, by norm_num, by norm_num, by decide⟩,
    C6_empty_range_zero aMain bMain 1 3 0 (by norm_num) (by norm_num)
      (by norm_num) (by decide)⟩

/-- C9 counterexample: the claim's parenthetical "(in particular whenever
`n < workerCount` and `workerCount ≥ 2`)" is wrong — at `n = 1`,
`workerCount = 2` worker 1's range is `{0}`, not empty. -/
theorem C9_counterexample :
    (1 : ℕ) < 2 ∧ 2 ≤ (2 : ℕ) ∧ workerRange 1 2 1 ≠ ∅ := by
  refine ⟨by norm_num, by norm_num, ?_⟩
  decide

/-- C9 amended: worker 1's local sum starts from the endpoint term purely by
rank, so for every `workerCount ≥ 2` the final total contains the endpoint
term `(f(a)+f(b))/2 · h`; worker 1's own range is empty whenever
`2n < workerCount` (rather than `n < workerCount`), in which case the term
still reaches the total. -/
theorem C9_edge_in_total (a b : ℚ) (n p : ℕ) (hp : 2 ≤ p) :
    local_pre a b n p 1 =
        (f a + f b) / 2 + ∑ i in workerRange 1 p n, f (a + i * h a b n) ∧
      GLOBAL_MUTEX_SUM a b n p =
        (f a + f b) / 2 * h a b n +
          (∑ k in Finset.range n, f (a + k * h a b n)) * h a b n ∧
      (2 * n < p → workerRange 1 p n = ∅) := by
  refine ⟨?_, total_eq a b n p hp, ?_⟩
  · simp [local_pre, edgeTerm, especial_case]
  · intro hnp
    rw [workerRange_eq_Ico]
    have h1 : BLOCK_LOW 1 p n = 0 := by
      rw [BLOCK_LOW]
      exact Nat.div_eq_of_lt (by omega)
    have h2 : BLOCK_LOW 2 p n = 0 := by
      rw [BLOCK_LOW]
      exact Nat.div_eq_of_lt (by omega)
    rw [h1, h2]
    simp

/-- Witness for C9 at `a = 1`, `b = 5`, `n = 1`, `workerCount = 3`. -/
theorem C9_edge_in_total_witness :
    2 ≤ (3 : ℕ) ∧
      (local_pre aMain bMain 1 3 1 =
          (f aMain + f bMain) / 2 +
            ∑ i in workerRange 1 3 1, f (aMain + i * h aMain bMain 1) ∧
        GLOBAL_MUTEX_SUM aMain bMain 1 3 =
          (f aMain + f bMain) / 2 * h aMain bMain 1 +
            (∑ k in Finset.range 1, f (aMain + k * h aMain bMain 1)) *
              h aMain bMain 1 ∧
        (2 * 1 < 3 → workerRange 1 3 1 = ∅)) :=
  ⟨by norm_num, C9_edge_in_total aMain bMain 1 3 (by norm_num)⟩

end MpiTrap
